import Mathlib

/-!
Verification development for a repository containing two time-series
transformer models: a Swin-style masked autoencoder (`Swin_MAE`) and a
Vision-Transformer classifier (`ViT`).

The tensor code is embedded shallowly: batches are handled one sample at a
time (every claimed property is per-sample), a sample's patch sequence is a
`List`, machine floats are modelled as exact rationals, and the framework's
random draw (`tf.random.uniform`) is passed in as an explicit `noise`
argument.
-/

namespace SwinMAE

/-- `tf.argsort v` (ascending): the indices `0 .. v.length - 1` sorted by the
value they point to in `v`.  Out-of-range lookups use the default `d`; they
never occur for the index range used here. -/
def argsort {α : Type} [LinearOrder α] (d : α) (v : List α) : List ℕ :=
  List.insertionSort (fun i j => v.getD i d ≤ v.getD j d) (List.range v.length)

theorem argsort_perm {α : Type} [LinearOrder α] (d : α) (v : List α) :
    (argsort d v).Perm (List.range v.length) :=
  List.perm_insertionSort _ _

theorem argsort_length {α : Type} [LinearOrder α] (d : α) (v : List α) :
    (argsort d v).length = v.length := by
  have h := (argsort_perm d v).length_eq
  simpa using h

theorem argsort_key_sorted {α : Type} [LinearOrder α] (d : α) (v : List α) :
    List.Sorted (· ≤ ·) ((argsort d v).map fun i => v.getD i d) := by
  have h : List.Sorted (fun i j => v.getD i d ≤ v.getD j d) (argsort d v) := by
    haveI : IsTotal ℕ fun i j => v.getD i d ≤ v.getD j d := ⟨fun _ _ => le_total _ _⟩
    haveI : IsTrans ℕ fun i j => v.getD i d ≤ v.getD j d := ⟨fun _ _ _ h1 h2 => le_trans h1 h2⟩
    exact List.sorted_insertionSort _ _
  exact List.pairwise_map.mpr h

theorem map_getD_range {α : Type} (d : α) (l : List α) :
    ((List.range l.length).map fun i => l.getD i d) = l := by
  apply List.ext_getElem
  · simp
  · intro i h1 h2
    simp only [List.getElem_map, List.getElem_range]
    rw [List.getD_eq_getElem _ _ h2]

/-- Applying the sort keys to the argsort of a permutation of `range n`
recovers `range n` itself: the key list is sorted and is a permutation of
`range n`. -/
theorem argsort_key_eq_range (v : List ℕ) (hv : v.Perm (List.range v.length)) :
    ((argsort 0 v).map fun i => v.getD i 0) = List.range v.length := by
  have hperm : ((argsort 0 v).map fun i => v.getD i 0).Perm (List.range v.length) := by
    have h1 := (argsort_perm 0 v).map fun i => v.getD i 0
    rw [map_getD_range 0 v] at h1
    exact h1.trans hv
  exact List.eq_of_perm_of_sorted hperm (argsort_key_sorted 0 v) (List.sorted_le_range _)

/-- `argsort` inverts a permutation of `range n`: looking up the shuffled
list at the position `argsort` assigns to rank `k` yields `k`. -/
theorem argsort_getD_inverse (v : List ℕ) (hv : v.Perm (List.range v.length))
    {k : ℕ} (hk : k < v.length) :
    v.getD ((argsort 0 v).getD k 0) 0 = k := by
  have hlen : (argsort 0 v).length = v.length := argsort_length 0 v
  have h := argsort_key_eq_range v hv
  have hka : k < (argsort 0 v).length := by omega
  have hkr : k < (List.range v.length).length := by simpa using hk
  have hkm : k < ((argsort 0 v).map fun i => v.getD i 0).length := by
    simpa [hlen] using hk
  have h2 : (((argsort 0 v).map fun i => v.getD i 0)).getD k 0 =
      (List.range v.length).getD k 0 := by rw [h]
  rw [List.getD_eq_getElem _ _ hkm, List.getD_eq_getElem _ _ hkr,
      List.getElem_map, List.getElem_range] at h2
  have hinner : (argsort 0 v).getD k 0 = (argsort 0 v)[k] :=
    List.getD_eq_getElem (argsort 0 v) 0 hka
  rw [hinner]
  exact h2

/-- `len_keep = int(float(L) * (1 - mask ratio))`: truncation of the product,
which is the floor for the non-negative values arising from ratios in `[0,1]`. -/
def len_keep (L : ℕ) (r : ℚ) : ℕ := ⌊(L : ℚ) * (1 - r)⌋₊

/-- `ids_shuffle = tf.argsort(noise, axis=1)`, one sample's row. -/
def ids_shuffle (noise : List ℚ) : List ℕ := argsort 0 noise

/-- `ids_restore = tf.argsort(ids_shuffle, axis=1)`, one sample's row. -/
def ids_restore (noise : List ℚ) : List ℕ := argsort 0 (ids_shuffle noise)

/-- `tf.gather_nd` with per-sample index rows: pick out `x` at each index. -/
def gatherL {α : Type} [Inhabited α] (x : List α) (ids : List ℕ) : List α :=
  ids.map fun i => x.getD i default

/-- `Swin_MAE._random_masking`, one sample: keep the first `len_keep` entries
of the noise argsort, gather the patches there, and return the restore
permutation.  `noise` stands for the row `tf.random.uniform((B, L))` drawn
for this sample. -/
def random_masking {α : Type} [Inhabited α] (r : ℚ) (patches : List α)
    (noise : List ℚ) : List α × List ℕ :=
  (gatherL patches ((ids_shuffle noise).take (len_keep patches.length r)),
   ids_restore noise)

theorem len_keep_le (L : ℕ) (r : ℚ) (h0 : 0 ≤ r) : len_keep L r ≤ L := by
  have h2 : (L : ℚ) * (1 - r) ≤ (L : ℚ) := by nlinarith [Nat.cast_nonneg (α := ℚ) L]
  calc ⌊(L : ℚ) * (1 - r)⌋₊ ≤ ⌊(L : ℚ)⌋₊ := Nat.floor_le_floor h2
    _ = L := Nat.floor_natCast _

theorem ids_shuffle_length (noise : List ℚ) :
    (ids_shuffle noise).length = noise.length :=
  argsort_length 0 noise

theorem ids_shuffle_perm (noise : List ℚ) :
    (ids_shuffle noise).Perm (List.range noise.length) :=
  argsort_perm 0 noise

theorem ids_restore_length (noise : List ℚ) :
    (ids_restore noise).length = noise.length := by
  unfold ids_restore
  rw [argsort_length, ids_shuffle_length]

theorem ids_restore_perm (noise : List ℚ) :
    (ids_restore noise).Perm (List.range noise.length) := by
  have h := argsort_perm 0 (ids_shuffle noise)
  rwa [ids_shuffle_length] at h

/-- C1: for any per-sample sequence of length `L` and mask ratio `r ∈ [0,1)`,
`_random_masking` keeps exactly `⌊L * (1 - r)⌋` patches (the `x_masked`
component has that length). -/
theorem random_masking_keeps_floor {α : Type} [Inhabited α] (r : ℚ)
    (patches : List α) (noise : List ℚ) (h0 : 0 ≤ r) (h1 : r < 1)
    (hn : noise.length = patches.length) :
    (random_masking r patches noise).1.length =
      ⌊(patches.length : ℚ) * (1 - r)⌋₊ := by
  have hlk := len_keep_le patches.length r h0
  simp only [random_masking, gatherL, List.length_map, List.length_take,
    ids_shuffle_length, hn]
  simp only [len_keep] at hlk ⊢
  omega

/-- C1 witness: input of shape `(23, 4)` (23 patch embeddings per sample) with
mask ratio `0.75` keeps exactly `⌊23 * 0.25⌋ = 5` patches. -/
theorem random_masking_keeps_floor_witness :
    (random_masking (3/4) (List.range 23)
        ((List.range 23).map fun i => ((i : ℕ) : ℚ))).1.length = 5 := by
  have h := random_masking_keeps_floor (3/4) (List.range 23)
    ((List.range 23).map fun i => ((i : ℕ) : ℚ)) (by norm_num) (by norm_num)
    (by simp)
  rw [h]
  simp only [List.length_range]
  rw [Nat.floor_eq_iff (by positivity)]
  norm_num

theorem argsort_getElem_inverse (v : List ℕ) (hv : v.Perm (List.range v.length))
    {k : ℕ} (hk : k < v.length) (hka : k < (argsort 0 v).length)
    (hin : (argsort 0 v)[k] < v.length) :
    v[(argsort 0 v)[k]] = k := by
  have h := argsort_getD_inverse v hv hk
  rw [List.getD_eq_getElem _ _ hka] at h
  rw [List.getD_eq_getElem _ _ hin] at h
  exact h

/-- C2: for each sample, `ids_restore` is a permutation of `[0, L)` (covers
every index exactly once), and gathering a sequence that was reordered by
`ids_shuffle` at the positions given by `ids_restore` recovers the original
sequence exactly. -/
theorem ids_restore_bijective_roundtrip {α : Type} [Inhabited α]
    (noise : List ℚ) (x : List α) (hx : x.length = noise.length) :
    (ids_restore noise).Perm (List.range noise.length) ∧
    gatherL (gatherL x (ids_shuffle noise)) (ids_restore noise) = x := by
  refine ⟨ids_restore_perm noise, ?_⟩
  have hslen : (ids_shuffle noise).length = noise.length := ids_shuffle_length noise
  have hrlen : (ids_restore noise).length = noise.length := ids_restore_length noise
  have hsperm : (ids_shuffle noise).Perm (List.range (ids_shuffle noise).length) := by
    rw [hslen]; exact ids_shuffle_perm noise
  apply List.ext_getElem
  · simp [gatherL, hrlen, hx]
  · intro k _h1 h2
    have hk : k < noise.length := by rw [hx] at h2; exact h2
    have hka : k < (ids_restore noise).length := by omega
    have hrk : (ids_restore noise)[k] < noise.length := by
      have hmem : (ids_restore noise)[k] ∈ ids_restore noise := List.getElem_mem _
      have := (ids_restore_perm noise).mem_iff.mp hmem
      simpa using this
    have hinv : (ids_shuffle noise)[(ids_restore noise)[k]] = k := by
      have h := argsort_getElem_inverse (ids_shuffle noise)
        (by rw [hslen]; exact ids_shuffle_perm noise)
        (k := k) (by omega) (by simpa [ids_restore] using hka)
        (by simpa [ids_restore] using (hslen ▸ hrk))
      simpa [ids_restore] using h
    simp only [gatherL, List.getElem_map]
    rw [List.getD_eq_getElem _ _ (by simp [hslen]; omega)]
    rw [List.getElem_map]
    rw [hinv]
    rw [List.getD_eq_getElem _ _ h2]

/-- C2 witness: a concrete noise row of length 5 — `ids_restore` is a
permutation of `[0, 5)` and the gather round-trip restores the sequence. -/
theorem ids_restore_bijective_roundtrip_witness :
    (ids_restore [4, 2, 0, 3, 1]).Perm (List.range 5) ∧
    gatherL (gatherL ([10, 20, 30, 40, 50] : List ℕ)
        (ids_shuffle [4, 2, 0, 3, 1]))
      (ids_restore [4, 2, 0, 3, 1]) = [10, 20, 30, 40, 50] := by
  have h := ids_restore_bijective_roundtrip ([4, 2, 0, 3, 1] : List ℚ)
    ([10, 20, 30, 40, 50] : List ℕ) (by decide)
  simpa using h

theorem len_keep_23 : len_keep 23 (3/4) = 5 := by
  unfold len_keep
  rw [Nat.floor_eq_iff (by positivity)]
  norm_num

/-- `mae_loss` from `Swin_MAE.pretrain` on one (flattened) sample:
`mask = tf.cast(tf.not_equal(y_true, 0), tf.float32)` and the loss is
`tf.reduce_mean(tf.square(y_true - y_pred) * mask)` — the mean is taken over
every position of the product tensor. -/
def mae_loss (y_true y_pred : List ℚ) : ℚ :=
  (List.zipWith (· * ·)
      (List.zipWith (fun t q => (t - q) * (t - q)) y_true y_pred)
      (y_true.map fun t => if t = 0 then (0 : ℚ) else 1)).sum /
    ((List.zipWith (· * ·)
      (List.zipWith (fun t q => (t - q) * (t - q)) y_true y_pred)
      (y_true.map fun t => if t = 0 then (0 : ℚ) else 1)).length : ℚ)

theorem zip_mask_eq (y p : List ℚ) :
    List.zipWith (· * ·)
      (List.zipWith (fun t q => (t - q) * (t - q)) y p)
      (y.map fun t => if t = 0 then (0 : ℚ) else 1) =
    List.zipWith (fun t q => if t = 0 then 0 else (t - q) * (t - q)) y p := by
  induction y generalizing p with
  | nil => simp
  | cons a ys ih =>
    cases p with
    | nil => simp
    | cons b ps =>
      simp only [List.map_cons, List.zipWith_cons_cons]
      rw [ih]
      by_cases hz : a = 0 <;> simp [hz]

theorem zip_if_set (y p : List ℚ) (i : ℕ) (q : ℚ) (hi : i < y.length)
    (hz : y.getD i 0 = 0) :
    List.zipWith (fun t r => if t = 0 then (0 : ℚ) else (t - r) * (t - r)) y
      (p.set i q) =
    List.zipWith (fun t r => if t = 0 then (0 : ℚ) else (t - r) * (t - r)) y p := by
  induction y generalizing p i with
  | nil => simp
  | cons a ys ih =>
    cases p with
    | nil => simp
    | cons b ps =>
      cases i with
      | zero =>
        simp only [List.getD_cons_zero] at hz
        simp [List.set, hz]
      | succ n =>
        simp only [List.set, List.zipWith_cons_cons]
        rw [ih ps n (by simpa using hi) (by simpa using hz)]

/-- C7: for targets and predictions of equal shape, `mae_loss` is mean-squared
error restricted by a zero-value mask: it equals the mean of
`if target = 0 then 0 else (target - pred)²`, and changing the prediction at
any position whose target is exactly `0` leaves the loss unchanged.  The
ignored set is determined by the target values alone — `mae_loss` receives no
information about which positions the masking stage dropped. -/
theorem mae_loss_zero_target_ignored (y_true y_pred : List ℚ)
    (h : y_pred.length = y_true.length) :
    mae_loss y_true y_pred =
      (List.zipWith (fun t q => if t = 0 then 0 else (t - q) * (t - q))
        y_true y_pred).sum / (y_true.length : ℚ) ∧
    ∀ i q, i < y_true.length → y_true.getD i 0 = 0 →
      mae_loss y_true (y_pred.set i q) = mae_loss y_true y_pred := by
  constructor
  · unfold mae_loss
    rw [zip_mask_eq]
    congr 1
    simp [h]
  · intro i q hi hz
    unfold mae_loss
    rw [zip_mask_eq, zip_mask_eq, zip_if_set y_true y_pred i q hi hz]

/-- C7 witness: target `[1, 0, 2]`, prediction `[1, 5, 0]` — replacing the
prediction under the zero target (position 1) by `7` leaves the loss at `4/3`
(only position 2 contributes, `(2 - 0)² / 3`). -/
theorem mae_loss_zero_target_ignored_witness :
    mae_loss [1, 0, 2] ([1, 5, 0].set 1 7) = mae_loss [1, 0, 2] [1, 5, 0] ∧
    mae_loss [1, 0, 2] [1, 5, 0] = 4 / 3 := by
  constructor
  · exact (mae_loss_zero_target_ignored [1, 0, 2] [1, 5, 0] (by decide)).2
      1 7 (by decide) (by decide)
  · norm_num [mae_loss]

/-- C3 (divergence at the failing input): the kept subsequence fed onward by
the forward pass depends on the per-call random draw.  Two forward passes
over the same 23-patch sample whose fresh uniform draws happen to be
ascending resp. descending keep different patches, so the inference pass is
not a function of the weights and the input alone. -/
theorem evaluate_forward_depends_on_fresh_noise :
    (random_masking (3/4) (List.range 23)
        ((List.range 23).map fun i => ((i : ℕ) : ℚ))).1 ≠
    (random_masking (3/4) (List.range 23)
        ((List.range 23).map fun i => ((22 - i : ℕ) : ℚ))).1 := by
  simp only [random_masking, List.length_range, len_keep_23]
  decide

/-- `Patches.call` from the ViT notebook:
`tf.reshape(x, [batch, -1, patch_size * x.shape[-1]])` on a per-sample block
of `L * F` values.  The reshape succeeds only when `patch_size * F` divides
`L * F`, and then yields `(L * F) / (patch_size * F)` patch vectors. -/
def patches_reshape (L F p : ℕ) : Option ℕ :=
  if 0 < p * F ∧ (p * F) ∣ (L * F) then some ((L * F) / (p * F)) else none

/-- `num_patches = (input_shape[0] // patch_size) * (input_shape[1] // 1)`
from `ViT._build_model`, the size of the positional-embedding table. -/
def num_patches (L F p : ℕ) : ℕ := (L / p) * (F / 1)

/-- C4 (divergence at the configured shape): for input shape `(23, 4)` with
`patch_size = 4` the reshape in `Patches.call` fails outright (`23 * 4 = 92`
is not a multiple of `16`), while the positional table is built for
`num_patches = 20` vectors; and even for a divisible length such as `L = 24`
the reshape yields `6` patches against a positional table of size `24`. -/
theorem patches_stage_mismatch :
    patches_reshape 23 4 4 = none ∧ num_patches 23 4 4 = 20 ∧
    patches_reshape 24 4 4 = some 6 ∧ num_patches 24 4 4 = 24 := by decide

/-- The keras layer kinds appearing in the classifier built by
`Swin_MAE._add_classification_head`. -/
inductive KerasLayer
  | inputLayer
  | pooling
  | lambdaLayer
  | denseLayer
deriving DecidableEq

/-- `Model.layers` of the classification head: keras places the `InputLayer`
at index 0, then `GlobalAveragePooling1D`, then — only when the head was
built with `trainable=False` — the `Lambda(stop_gradient)` layer, then the
softmax `Dense` layer. -/
def classifier_layers (trainable : Bool) : List KerasLayer :=
  [KerasLayer.inputLayer, KerasLayer.pooling] ++
    (if trainable then [] else [KerasLayer.lambdaLayer]) ++
    [KerasLayer.denseLayer]

/-- Line 116 of the source:
`self.encoder.trainable = not isinstance(self.classifier.layers[1], layers.Lambda)`. -/
def encoder_trainable_flag (trainable : Bool) : Bool :=
  !((classifier_layers trainable).getD 1 KerasLayer.inputLayer ==
    KerasLayer.lambdaLayer)

/-- The checkpoint file name written by `Swin_MAE.finetune`:
`f"{'linear' if not self.encoder.trainable else 'finetune'}_model.h5"`. -/
def finetune_checkpoint (trainable : Bool) : String :=
  (if encoder_trainable_flag trainable then "finetune" else "linear") ++
    "_model.h5"

/-- C5 (divergence): `classifier.layers[1]` is the pooling layer — the
`Lambda` sits at index 2 when present — so the `isinstance` test never fires,
the flag stays `true`, and both training modes checkpoint to
`finetune_model.h5`; linear-probe mode never writes `linear_model.h5`. -/
theorem finetune_checkpoint_always_finetune :
    finetune_checkpoint false = "finetune_model.h5" ∧
    finetune_checkpoint true = "finetune_model.h5" := by
  exact ⟨rfl, rfl⟩

/-- Dual numbers over ℚ: a value together with its derivative with respect
to one fixed encoder parameter.  The framework's gradient of a composite of
arithmetic layers is the `der` component propagated by these rules. -/
structure Dual where
  val : ℚ
  der : ℚ
deriving DecidableEq

def Dual.add (a b : Dual) : Dual := ⟨a.val + b.val, a.der + b.der⟩

def Dual.mul (a b : Dual) : Dual :=
  ⟨a.val * b.val, a.val * b.der + a.der * b.val⟩

def Dual.scale (c : ℚ) (a : Dual) : Dual := ⟨c * a.val, c * a.der⟩

/-- `tf.stop_gradient` (the body of the Lambda layer that
`_add_classification_head` inserts when `trainable=False`): same value,
derivative cut to `0`. -/
def stop_gradient (a : Dual) : Dual := ⟨a.val, 0⟩

def dualSum (xs : List Dual) : Dual := xs.foldr Dual.add ⟨0, 0⟩

/-- Channel `c` of `GlobalAveragePooling1D`: the mean over the sequence
dimension of the encoder output. -/
def gapChannel (seq : List (List Dual)) (c : ℕ) : Dual :=
  Dual.scale (1 / (seq.length : ℚ)) (dualSum (seq.map fun v => v.getD c ⟨0, 0⟩))

/-- `GlobalAveragePooling1D` over the 64 encoder channels. -/
def pooledVec (seq : List (List Dual)) : List Dual :=
  (List.range 64).map (gapChannel seq)

/-- One output unit of the final `Dense` layer before its activation:
`b + Σ_c w_c * x_c`. -/
def dense_unit (w : List Dual) (b : Dual) (x : List Dual) : Dual :=
  Dual.add b (dualSum (List.zipWith Dual.mul w x))

/-- `_add_classification_head`: pool the encoder output, insert
`stop_gradient` exactly when the head is built with `trainable=False`, then
the per-class affine projection (softmax acts on values only and is omitted;
the chain rule through it multiplies these derivatives). -/
def classification_logits (trainable : Bool) (W : List (List Dual))
    (bs : List Dual) (seq : List (List Dual)) : List Dual :=
  let x := if trainable then pooledVec seq else (pooledVec seq).map stop_gradient
  List.zipWith (fun w b => dense_unit w b x) W bs

theorem dualSum_der (xs : List Dual) :
    (dualSum xs).der = (xs.map Dual.der).sum := by
  induction xs with
  | nil => rfl
  | cons a l ih =>
    have hc : dualSum (a :: l) = Dual.add a (dualSum l) := rfl
    rw [hc, List.map_cons, List.sum_cons, ← ih]
    rfl

theorem sum_der_zero (xs : List Dual) (h : ∀ a ∈ xs, a.der = 0) :
    (xs.map Dual.der).sum = 0 := by
  induction xs with
  | nil => rfl
  | cons a l ih =>
    simp only [List.map_cons, List.sum_cons]
    rw [h a (by simp), ih (fun u hu => h u (by simp [hu]))]
    simp

theorem forall_mem_zipWith {α β γ : Type} (f : α → β → γ) (P : γ → Prop)
    (l1 : List α) (l2 : List β) (h : ∀ a ∈ l1, ∀ b ∈ l2, P (f a b)) :
    ∀ c ∈ List.zipWith f l1 l2, P c := by
  induction l1 generalizing l2 with
  | nil => simp
  | cons a l ih =>
    cases l2 with
    | nil => simp
    | cons b m =>
      intro c hc
      simp only [List.zipWith_cons_cons, List.mem_cons] at hc
      rcases hc with h1 | h1
      · subst h1
        exact h a (by simp) b (by simp)
      · exact ih m (fun u hu b1 hb1 => h u (by simp [hu]) b1 (by simp [hb1])) c h1

theorem zip_mul_der_zero (w x : List Dual) (hw : ∀ a ∈ w, a.der = 0)
    (hx : ∀ a ∈ x, a.der = 0) :
    ∀ a ∈ List.zipWith Dual.mul w x, a.der = 0 := by
  apply forall_mem_zipWith
  intro a ha b hb
  simp [Dual.mul, hw a ha, hx b hb]

theorem weighted_der_sum_zero (g : List ℚ) (l : List Dual)
    (h : ∀ d ∈ l, d.der = 0) :
    (List.zipWith (fun gi d => gi * d.der) g l).sum = 0 := by
  induction g generalizing l with
  | nil => simp
  | cons a m ih =>
    cases l with
    | nil => simp
    | cons b t =>
      simp only [List.zipWith_cons_cons, List.sum_cons]
      rw [h b (by simp), ih t (fun d hd => h d (by simp [hd]))]
      simp

/-- C6: with the classification head built with `trainable=False`, every
logit has zero derivative with respect to any encoder parameter — the
`stop_gradient` Lambda cuts the chain right after pooling — hence the
chain-rule total derivative of the classification loss (for any upstream
loss gradient `g`) is zero, and an optimizer step `θ - lr · grad` leaves the
encoder parameter `θ` unchanged. `seq` is the encoder output carrying
arbitrary per-position derivatives with respect to `θ`; the head parameters
`W`, `bs` do not depend on `θ`. -/
theorem linear_mode_encoder_frozen (W : List (List Dual)) (bs : List Dual)
    (seq : List (List Dual)) (g : List ℚ) (θ lr : ℚ)
    (hW : ∀ w ∈ W, ∀ d ∈ w, d.der = 0) (hb : ∀ d ∈ bs, d.der = 0) :
    (∀ d ∈ classification_logits false W bs seq, d.der = 0) ∧
    (List.zipWith (fun gi d => gi * d.der) g
        (classification_logits false W bs seq)).sum = 0 ∧
    θ - lr * (List.zipWith (fun gi d => gi * d.der) g
        (classification_logits false W bs seq)).sum = θ := by
  have hx : ∀ a ∈ (pooledVec seq).map stop_gradient, a.der = 0 := by
    intro a ha
    obtain ⟨b, _, rfl⟩ := List.mem_map.mp ha
    rfl
  have hlog : ∀ d ∈ classification_logits false W bs seq, d.der = 0 := by
    unfold classification_logits
    simp only [Bool.false_eq_true, if_neg, ite_false]
    apply forall_mem_zipWith
    intro w hw b hb'
    simp only [dense_unit, Dual.add, dualSum_der]
    rw [hb b hb', sum_der_zero _ (zip_mul_der_zero w _ (hW w hw) hx)]
    simp
  refine ⟨hlog, ?_, ?_⟩
  · exact weighted_der_sum_zero g _ hlog
  · rw [weighted_der_sum_zero g _ hlog]
    ring

/-- C6 witness: one encoder channel whose output value 3 carries derivative 5
with respect to the encoder parameter θ = 10; head weight 2 and bias 1 have
derivative 0.  The logit derivative, the total loss derivative, and the
change to θ under a step with learning rate 1/2 are all zero. -/
theorem linear_mode_encoder_frozen_witness :
    (∀ d ∈ classification_logits false [[(⟨2, 0⟩ : Dual)]] [(⟨1, 0⟩ : Dual)]
        [[(⟨3, 5⟩ : Dual)]], d.der = 0) ∧
    (List.zipWith (fun gi d => gi * d.der) [(1 : ℚ)]
        (classification_logits false [[(⟨2, 0⟩ : Dual)]] [(⟨1, 0⟩ : Dual)]
          [[(⟨3, 5⟩ : Dual)]])).sum = 0 ∧
    (10 : ℚ) - (1/2) * (List.zipWith (fun gi d => gi * d.der) [(1 : ℚ)]
        (classification_logits false [[(⟨2, 0⟩ : Dual)]] [(⟨1, 0⟩ : Dual)]
          [[(⟨3, 5⟩ : Dual)]])).sum = 10 :=
  linear_mode_encoder_frozen [[(⟨2, 0⟩ : Dual)]] [(⟨1, 0⟩ : Dual)]
    [[(⟨3, 5⟩ : Dual)]] [(1 : ℚ)] 10 (1/2)
    (by intro w hw d hd; simp at hw; subst hw; simp at hd; subst hd; rfl)
    (by intro d hd; simp at hd; subst hd; rfl)

/-- Elementwise addition of two feature/embedding vectors (tensor `+` on the
last axis, over whatever element dtype the tensor carries). -/
def vadd {β : Type} [Add β] (a b : List β) : List β := List.zipWith (· + ·) a b

/-- `masked_x += pos_embed[:tf.shape(masked_x)[1]]` (`_build_mae` line 61):
add the first `masked_x.length` rows of the positional table, row `k` to the
`k`-th kept patch. -/
def posAdd {β : Type} [Add β] (table : List (List β)) (xs : List (List β)) :
    List (List β) :=
  List.zipWith vadd xs (table.take xs.length)

/-- The parameter layers of one `SwinBlock` (attention, the two layer norms,
the MLP) are framework primitives; they enter the embedding as opaque
functions.  Keras's `MultiHeadAttention` returns a sequence of the query's
length — stated as a hypothesis where needed. -/
structure BlockParams (β : Type) where
  attn : List (List β) → List (List β)
  normA : List β → List β
  normB : List β → List β
  mlp : List β → List β

/-- `SwinBlock.call`: `x = x + attn(norm1(x), norm1(x))` then
`x = x + mlp(norm2(x))`. -/
def swinBlock {β : Type} [Add β] (p : BlockParams β) (x : List (List β)) :
    List (List β) :=
  List.zipWith vadd (List.zipWith vadd x (p.attn (x.map p.normA)))
    ((List.zipWith vadd x (p.attn (x.map p.normA))).map fun v => p.mlp (p.normB v))

/-- The encoder half of `_build_mae`: per-timestep `Dense(64)` embedding,
random masking with the fresh per-call noise, positional rows, then the
stack of Swin blocks.  Its output is exactly what `pretrain` feeds to the
decoder (`mae_model = Model(encoder.input, decoder(encoder.output))`). -/
def encoderForward {β : Type} [Add β] (r : ℚ) (embed : List β → List β)
    (table : List (List β)) (blocks : List (BlockParams β))
    (input : List (List β)) (noise : List ℚ) : List (List β) :=
  blocks.foldl (fun s p => swinBlock p s)
    (posAdd table (random_masking r (input.map embed) noise).1)

theorem swinBlock_length {β : Type} [Add β] (p : BlockParams β)
    (x : List (List β)) (h : ∀ t, (p.attn t).length = t.length) :
    (swinBlock p x).length = x.length := by
  simp [swinBlock, List.length_zipWith, h]

theorem foldl_swinBlock_length {β : Type} [Add β] (blocks : List (BlockParams β))
    (s : List (List β)) (h : ∀ p ∈ blocks, ∀ t, (p.attn t).length = t.length) :
    (blocks.foldl (fun s p => swinBlock p s) s).length = s.length := by
  induction blocks generalizing s with
  | nil => rfl
  | cons p l ih =>
    simp only [List.foldl_cons]
    rw [ih _ (fun q hq t => h q (by simp [hq]) t),
      swinBlock_length p s (h p (by simp))]

theorem random_masking_length {α : Type} [Inhabited α] (r : ℚ)
    (patches : List α) (noise : List ℚ) (h0 : 0 ≤ r)
    (hn : noise.length = patches.length) :
    (random_masking r patches noise).1.length = len_keep patches.length r := by
  have hlk := len_keep_le patches.length r h0
  simp only [random_masking, gatherL, List.length_map, List.length_take,
    ids_shuffle_length, hn]
  omega

/-- C8: the sequence the decoder receives — the encoder output of
`_build_mae`, fed to `decoder(encoder.output)` in `pretrain` — contains only
the kept patches: it has length `len_keep = ⌊L·(1-r)⌋`, strictly less than
the full patch count `L`, so the dropped patches never pass through the
decoder and never contribute to the reconstruction. -/
theorem decoder_input_only_kept {β : Type} [Add β] (r : ℚ)
    (embed : List β → List β) (table : List (List β))
    (blocks : List (BlockParams β)) (input : List (List β)) (noise : List ℚ)
    (h0 : 0 < r) (h1 : r < 1) (hn : noise.length = input.length)
    (hL : 0 < input.length) (ht : input.length ≤ table.length)
    (hattn : ∀ p ∈ blocks, ∀ t, (p.attn t).length = t.length) :
    (encoderForward r embed table blocks input noise).length =
      len_keep input.length r ∧
    len_keep input.length r < input.length := by
  have hmask : (random_masking r (input.map embed) noise).1.length =
      len_keep input.length r := by
    have h := random_masking_length r (input.map embed) noise (le_of_lt h0)
      (by simpa using hn)
    simpa using h
  have hlk := len_keep_le input.length r (le_of_lt h0)
  constructor
  · unfold encoderForward
    rw [foldl_swinBlock_length _ _ hattn]
    simp only [posAdd, List.length_zipWith, List.length_take, hmask]
    omega
  · have hnn : (0 : ℚ) ≤ (input.length : ℚ) * (1 - r) := by
      have : (0 : ℚ) ≤ 1 - r := by linarith
      positivity
    rw [len_keep, Nat.floor_lt hnn]
    have hLq : (0 : ℚ) < (input.length : ℚ) := by exact_mod_cast hL
    nlinarith

/-- C8 witness: 23 patches, mask ratio 0.75, identity attention/norm/MLP
blocks — the decoder input holds 5 = ⌊23·0.25⌋ < 23 vectors. -/
theorem decoder_input_only_kept_witness :
    (encoderForward (3/4) id ((List.range 23).map fun i => [((i : ℕ) : ℚ)])
        [⟨id, id, id, id⟩] ((List.range 23).map fun i => [((i : ℕ) : ℚ)])
        ((List.range 23).map fun i => ((i : ℕ) : ℚ))).length = 5 ∧
    (5 : ℕ) < 23 := by
  have h := decoder_input_only_kept (3/4) id
    ((List.range 23).map fun i => [((i : ℕ) : ℚ)]) [⟨id, id, id, id⟩]
    ((List.range 23).map fun i => [((i : ℕ) : ℚ)])
    ((List.range 23).map fun i => ((i : ℕ) : ℚ))
    (by norm_num) (by norm_num) (by simp) (by simp) (by simp)
    (by intro p hp t; simp at hp; subst hp; simp)
  simp only [List.length_map, List.length_range, len_keep_23] at h
  exact h

/-- `ids_keep = ids_shuffle[:, :len_keep]` (`_random_masking` line 44): the
original indices of the patches that are kept, in kept order. -/
def ids_keep (r : ℚ) (L : ℕ) (noise : List ℚ) : List ℕ :=
  (ids_shuffle noise).take (len_keep L r)

/-- The code's positional stage: the masked sequence produced by
`_random_masking` with the first `len_keep` positional rows added
(`_build_mae` lines 57–61). -/
def maskedWithPos {β : Type} [Add β] (r : ℚ) (table : List (List β))
    (x : List (List β)) (noise : List ℚ) : List (List β) :=
  posAdd table (random_masking r x noise).1

/-- Follows the spec's words for C9: each kept patch receives the positional
row of its original index in the input sequence, `table[ids_keep[k]]`. -/
def maskedWithPosSpec {β : Type} [Add β] (r : ℚ) (table : List (List β))
    (x : List (List β)) (noise : List ℚ) : List (List β) :=
  List.zipWith vadd (random_masking r x noise).1
    ((ids_keep r x.length noise).map fun i => table.getD i [])

/-- Concrete 23-row positional table, row `i` holding the value `i`. -/
def tableC : List (List ℕ) := (List.range 23).map fun i => [i]

/-- Concrete embedded patches, patch `i` holding the value `100 + i`. -/
def patchesC : List (List ℕ) := (List.range 23).map fun i => [100 + i]

/-- A descending noise draw: its argsort keeps patches `22, 21, 20, 19, 18`. -/
def noiseC : List ℚ := (List.range 23).map fun i => ((22 - i : ℕ) : ℚ)

/-- C9 (refutation): with a descending noise draw the kept patches are
`22, 21, 20, 19, 18`, yet rows `0 … 4` of the table are added — the result
differs from the spec's description, under which each kept patch would
receive the row of its original index. -/
theorem pos_embedding_not_original_index :
    maskedWithPos (3/4) tableC patchesC noiseC ≠
    maskedWithPosSpec (3/4) tableC patchesC noiseC := by
  simp only [maskedWithPos, maskedWithPosSpec, posAdd, random_masking,
    ids_keep, tableC, patchesC, noiseC, List.length_map, List.length_range,
    len_keep_23]
  decide

/-- C9 amended: the row added to the `k`-th kept patch is row `k` of the
positional table — the first `len_keep` rows in kept order — independent of
which patches the draw kept; it matches the patch's original index only when
the keep set happens to be `0 … len_keep-1` in order. -/
theorem pos_embedding_positional_rows {β : Type} [Add β] (r : ℚ)
    (table : List (List β)) (x : List (List β)) (noise : List ℚ) (k : ℕ)
    (hk : k < (maskedWithPos r table x noise).length) :
    (maskedWithPos r table x noise).getD k [] =
      vadd ((random_masking r x noise).1.getD k []) (table.getD k []) := by
  simp only [maskedWithPos, posAdd, List.length_zipWith, List.length_take,
    lt_min_iff] at hk
  obtain ⟨hk1, hk2, hk3⟩ := hk
  simp only [maskedWithPos, posAdd]
  rw [List.getD_eq_getElem _ _ (by simp [List.length_zipWith, List.length_take]; omega)]
  rw [List.getElem_zipWith]
  congr 1
  · rw [List.getD_eq_getElem _ _ hk1]
  · rw [List.getElem_take]
    rw [List.getD_eq_getElem _ _ hk3]

/-- C9 amended witness: at kept slot 0 (original patch 22, value 122) the row
added is table row 0 (value 0), so the slot evaluates to `[122]`. -/
theorem pos_embedding_positional_rows_witness :
    (maskedWithPos (3/4) tableC patchesC noiseC).getD 0 [] =
      vadd ((random_masking (3/4) patchesC noiseC).1.getD 0 [])
        (tableC.getD 0 []) ∧
    (maskedWithPos (3/4) tableC patchesC noiseC).getD 0 [] = [122] := by
  constructor
  · apply pos_embedding_positional_rows
    simp only [maskedWithPos, posAdd, random_masking, patchesC, noiseC,
      tableC, List.length_map, List.length_range, len_keep_23,
      List.length_zipWith, List.length_take, gatherL]
    decide
  · simp only [maskedWithPos, posAdd, random_masking, patchesC, noiseC,
      tableC, List.length_map, List.length_range, len_keep_23]
    decide

end SwinMAE

namespace ViTModelGroup

/-- sklearn's `LabelEncoder` state: `classes_` exists only after a fit;
`transform` on a never-fitted instance raises `NotFittedError` before
touching its argument. -/
structure LabelEncoderModel where
  classes : Option (List ℤ)

/-- `LabelEncoder.transform`: error when unfitted, otherwise the index of
each label in the fitted class list. -/
def LabelEncoderModel.transform (e : LabelEncoderModel) (ys : List ℤ) :
    Except String (List ℕ) :=
  match e.classes with
  | none => Except.error "NotFittedError"
  | some cs => Except.ok (ys.map fun y => cs.indexOf y)

/-- The restored keras network with its weights: an opaque function standing
for `self.model.predict` followed by `np.argmax(..., axis=1)`. -/
structure NetModel where
  predict : List (List ℚ) → List ℕ

/-- `ViT.__init__`: builds the network and a fresh, unfitted `LabelEncoder`
(`self.encoder = LabelEncoder()`). -/
def ViT_init (m : NetModel) : LabelEncoderModel × NetModel :=
  ({ classes := none }, m)

/-- `ViT.load`: `vit = cls(...)`, then `vit.model = model` — the network
weights are replaced with the restored ones, but the label encoder stays the
fresh unfitted one from `__init__`. -/
def ViT_load (m : NetModel) : LabelEncoderModel × NetModel :=
  ((ViT_init m).1, m)

/-- `ViT.evaluate`: its first statement is
`y_test_enc = self.encoder.transform(y_test)`; predictions and metrics are
only computed afterwards, so a transform error escapes before any of them. -/
def ViT_evaluate (v : LabelEncoderModel × NetModel) (x : List (List ℚ))
    (y : List ℤ) : Except String (List ℕ × List ℕ) :=
  match v.1.transform y with
  | Except.error e => Except.error e
  | Except.ok yenc => Except.ok (yenc, v.2.predict x)

/-- C10: evaluating a freshly loaded ViT — any restored network, any test
set — fails in the label-encoder transform step with `NotFittedError`,
before any prediction or metric is computed. -/
theorem load_then_evaluate_errors (m : NetModel) (x : List (List ℚ))
    (y : List ℤ) :
    ViT_evaluate (ViT_load m) x y = Except.error "NotFittedError" := rfl

end ViTModelGroup
